import Mathlib

set_option maxRecDepth 4000

/-!
Verification of the PostCipher deterministic puzzle engine.

Shallow embedding of the TypeScript sources:
- src/shared/cryptogram/engine.ts   (hashString, mulberry32, seededShuffle,
  generateCipherMap, encryptText)
- src/shared/cryptogram/cipher-fit.ts (isCipherFriendly)
- src/shared/types/puzzle.ts        (calculateScore)
- src/server/services/post-database.ts (getDailyPost, selectPostFromPool,
  getRandomPost — pure selection logic, with the redis store passed in as
  explicit pool / usedIds snapshots)
- src/server/services/puzzle.ts     (validatePuzzle)

Strings are modelled as List Char (JS strings are sequences of UTF-16 code
units; all texts relevant here are handled code-unit-wise, and charCodeAt is
modelled as Char.toNat).  JS 32-bit integer arithmetic is modelled as Nat
arithmetic mod 2^32 on the unsigned representative: JS bitwise ops (ToInt32 /
ToUint32 coercions, ^, |, >>>, Math.imul) and wrap-around addition all commute
with taking the unsigned residue mod 2^32, and none of the operations used by
the sources (no signed shift, no signed division) depends on the sign
interpretation, so the Nat model is exact.
-/

/-- The 26-letter uppercase alphabet, as in engine.ts line 3. -/
def ALPHABET : List Char := "ABCDEFGHIJKLMNOPQRSTUVWXYZ".toList

/-- Modulus for 32-bit wrap-around (4294967296 = 2^32). -/
def U32 : Nat := 4294967296

/-- Math.imul: low 32 bits of the product (unsigned representative). -/
def imul32 (a b : Nat) : Nat := (a * b) % U32

/-- One step of the string hash loop from engine.ts hashString (the identical
function also appears in post-database.ts and puzzle.ts):
hash = (hash << 5) - hash + charCode, wrapped to 32 bits by hash &= hash.
On unsigned residues this is (32*h - h + c) mod 2^32 = (31*h + c) mod 2^32. -/
def hashStep (h : Nat) (c : Char) : Nat := (31 * h + c.toNat) % U32

/-- Math.abs applied to the signed (two's-complement) reading of a 32-bit
residue: values below 2^31 are non-negative and unchanged, values from 2^31
up represent negatives -(2^32 - h). -/
def abs32 (h : Nat) : Nat := if h < 2 ^ 31 then h else U32 - h

/-- hashString from engine.ts lines 20-27: additive polynomial hash folded to
32 bits, then Math.abs of the signed value. -/
def hashString (s : List Char) : Nat := abs32 (s.foldl hashStep 0)

/-- One draw of the mulberry32 PRNG (engine.ts lines 8-15).  The argument is
the closure-captured seed accumulator AFTER the `seed += 0x6d2b79f5` update;
the result is the 32-bit output word t (the JS function returns t / 2^32).
All intermediate JS coercions are taken on unsigned residues mod 2^32. -/
def mulberry32Next (s : Nat) : Nat :=
  let t0 := s % U32
  let t1 := imul32 (Nat.xor t0 (t0 >>> 15)) (Nat.lor t0 1)
  let t2 := Nat.xor t1 ((t1 + imul32 (Nat.xor t1 (t1 >>> 7)) (Nat.lor t1 61)) % U32)
  Nat.xor t2 (t2 >>> 14)

/-- Math.floor(rng() * n) where rng() = out / 2^32 with out < 2^32.
For n ≤ 26 the float computation (out / 2^32) * n is exact in binary64
(out * n < 2^37 is exactly representable), so the floor equals the Nat
division out * n / 2^32. -/
def rngIndex (out n : Nat) : Nat := out * n / U32

/-- The JS destructuring swap [l[i], l[j]] = [l[j], l[i]] on an array,
modelled on lists.  At every call site of the sources both indices are in
range, in which case the two positions are exchanged. -/
def listSwap {α : Type} (l : List α) (i j : Nat) : List α :=
  match l[i]?, l[j]? with
  | some a, some b => (l.set i b).set j a
  | _, _ => l

/-- Descending index list n-1, n-2, ..., 1 used by the Fisher-Yates loop
`for (let i = result.length - 1; i > 0; i--)`. -/
def downIdxs (n : Nat) : List Nat := (List.range (n - 1)).map (fun k => n - 1 - k)

/-- One iteration of the Fisher-Yates loop in seededShuffle (engine.ts
lines 32-39), carrying the array and the PRNG seed accumulator:
advance the seed, draw j = floor(rng() * (i+1)), swap positions i and j. -/
def shuffleStep {α : Type} (st : List α × Nat) (i : Nat) : List α × Nat :=
  let s := st.2 + 0x6d2b79f5
  let j := rngIndex (mulberry32Next s) (i + 1)
  (listSwap st.1 i j, s)

/-- seededShuffle from engine.ts lines 32-39, specialised to the mulberry32
generator state (the JS version receives the rng closure; here the closure
state is threaded explicitly).  seed is the initial accumulator value. -/
def seededShuffle {α : Type} (l : List α) (seed : Nat) : List α :=
  ((downIdxs l.length).foldl shuffleStep (l, seed)).1

/-- One iteration of the no-fixed-point fixup loop in generateCipherMap
(engine.ts lines 56-61): if shuffled[i] = ALPHABET[i], swap position i with
(i+1) mod 26. -/
def fixupStep (l : List Char) (i : Nat) : List Char :=
  if l.getD i ' ' = ALPHABET.getD i ' ' then listSwap l i ((i + 1) % ALPHABET.length) else l

/-- The complete fixup pass of generateCipherMap, i = 0 .. 25. -/
def fixup (l : List Char) : List Char := (List.range ALPHABET.length).foldl fixupStep l

/-- The shuffled alphabet computed inside generateCipherMap for a seed string:
hash the seed, run the seeded Fisher-Yates shuffle, then the fixup pass. -/
def cipherShuffled (seedString : List Char) : List Char :=
  fixup (seededShuffle ALPHABET (hashString seedString))

/-- CipherMap from engine.ts lines 41-44.  The TS Record lookups return
undefined on missing keys, modelled as Option. -/
structure CipherMap where
  encode : Char → Option Char
  decode : Char → Option Char

/-- generateCipherMap from engine.ts lines 50-71.  The encode record is built
by encode[ALPHABET[i]] = shuffled[i], so looking up a key c means indexing
shuffled at the position of c in ALPHABET (indexOf returns the length when
the key is absent, making the lookup none, i.e. undefined); dually
decode[shuffled[i]] = ALPHABET[i], and both lists have length 26.  Keys of
encode are exactly the members of ALPHABET, keys of decode the members of
shuffled. -/
def generateCipherMap (seedString : List Char) : CipherMap :=
  let shuffled := cipherShuffled seedString
  { encode := fun c => shuffled[ALPHABET.indexOf c]?
    decode := fun c => ALPHABET[shuffled.indexOf c]? }

/-- Full uppercase mapping of one code unit under Unicode Default Case
Conversion, as applied by JS String.prototype.toUpperCase: a code unit may
expand to several (SpecialCasing), so the result is a list.  The table is
pinned exactly on the Basic Latin and Latin-1 ranges: a-z shift down by 32,
the micro sign U+00B5 maps to Greek capital Mu U+039C, the sharp s U+00DF
expands to SS, the Latin-1 lowercase range U+00E0-U+00FE (except the
division sign U+00F7) shifts down by 32, and U+00FF maps to U+0178.  Code
points above U+00FF are left unchanged here; the theorems below treat every
non-A-Z character of the UPPERCASED text uniformly as cipher pass-through,
so none of them depends on case mappings outside the pinned ranges. -/
def jsUpperChar (c : Char) : List Char :=
  if 97 ≤ c.toNat ∧ c.toNat ≤ 122 then [Char.ofNat (c.toNat - 32)]
  else if c.toNat = 181 then [Char.ofNat 924]
  else if c.toNat = 223 then ['S', 'S']
  else if (224 ≤ c.toNat ∧ c.toNat ≤ 254) ∧ c.toNat ≠ 247 then [Char.ofNat (c.toNat - 32)]
  else if c.toNat = 255 then [Char.ofNat 376]
  else [c]

/-- Model of text.toUpperCase().split(''): the concatenation of the full
uppercase mappings of the code units of the text.  Because of expansions
such as U+00DF to SS this can be LONGER than the input text. -/
def jsToUpperText (t : List Char) : List Char := (t.map jsUpperChar).flatten

/-- Char-wise model of JS String.prototype.toLowerCase on ASCII code units. -/
def jsToLower (c : Char) : Char :=
  if 65 ≤ c.toNat ∧ c.toNat ≤ 90 then Char.ofNat (c.toNat + 32) else c

/-- The per-character substitution of encryptText (engine.ts line 80):
char => ALPHABET.includes(char) ? map.encode[char] : char.  For c ∈ ALPHABET
the record lookup encode[c] is always defined; getD only supplies the
(unreachable) undefined case. -/
def encChar (map : CipherMap) (c : Char) : Char :=
  if c ∈ ALPHABET then (map.encode c).getD c else c

/-- The per-character decode substitution, dual to encChar. -/
def decChar (map : CipherMap) (c : Char) : Char :=
  if c ∈ ALPHABET then (map.decode c).getD c else c

/-- encryptText from engine.ts lines 76-82: uppercase the text, then replace
every character that occurs in ALPHABET by its encode image and pass every
other character through. -/
def encryptText (text : List Char) (map : CipherMap) : List Char :=
  (jsToUpperText text).map (encChar map)

/-- Modelled from the spec (section 4.1 / section 8): the decode direction
applied letter by letter — characters occurring in ALPHABET are replaced by
their decode image, all others pass through.  engine.ts itself only ships the
decode component inside CipherMap; this is the letter-wise application the
claims quantify over. -/
def decodeTextLetterwise (text : List Char) (map : CipherMap) : List Char :=
  text.map (decChar map)

/-- Whitespace for the JS String.prototype.trim model (ASCII whitespace; the
titles handled by the engine contain no exotic Unicode space separators). -/
def isJsSpace (c : Char) : Bool := c = ' ' ∨ c = '\t' ∨ c = '\n' ∨ c = '\r'

/-- Char-wise model of JS String.prototype.trim. -/
def jsTrim (l : List Char) : List Char :=
  ((l.dropWhile isJsSpace).reverse.dropWhile isJsSpace).reverse

/-- Test for /[A-Za-z]/ on one character. -/
def isAsciiLetter (c : Char) : Bool := ('A' ≤ c ∧ c ≤ 'Z') ∨ ('a' ≤ c ∧ c ≤ 'z')

/-- Test for /[0-9]/ on one character. -/
def isAsciiDigit (c : Char) : Bool := '0' ≤ c ∧ c ≤ '9'

/-- isCipherFriendly from cipher-fit.ts lines 120-143.  The counting loop
classifies each character by the first matching case (letter / space / digit);
since the three character classes are pairwise disjoint the three counters
are plain countP counts.  The final float test
ratio >= 0.88 && (1 - ratio) <= 0.12 with ratio = (letters+spaces)/length is
modelled by the exact rational inequality 22 * length ≤ 25 * (letters+spaces)
(0.88 = 22/25; the two float conjuncts coincide with this single exact
comparison, as the distance of any counting ratio from 0.88 is far above the
binary64 rounding error for the string lengths involved). -/
def isCipherFriendly (title : List Char) : Bool :=
  let t := jsTrim title
  if t.length < 20 then false
  else
    let letters := t.countP isAsciiLetter
    let spaces := t.countP (fun c => c = ' ')
    let digits := t.countP isAsciiDigit
    if 0 < digits then false
    else 22 * t.length ≤ 25 * (letters + spaces)

/-- calculateScore from src/shared/types/puzzle.ts lines 75-107.
Math.exp is modelled as Real.exp, Math.round as round (both round halves
up), Math.max as max with the 100-point floor. -/
noncomputable def calculateScore (elapsedTime hintsUsed mistakes : ℝ) : ℤ :=
  max (round (10000 + 5000 * Real.exp (-elapsedTime / 300) - 750 * hintsUsed - 100 * mistakes)) 100

/-- RedditPost restricted to the fields the modelled selection operations
read (id, title, subreddit, cipherFriendly); author, upvotes, permalink,
createdUtc and difficulty are carried by the TS record but never inspected
by getDailyPost / selectPostFromPool / getRandomPost / validatePuzzle. -/
structure Post where
  id : List Char
  title : List Char
  subreddit : List Char
  cipherFriendly : Option Bool
deriving DecidableEq, Repr

/-- Default element for JS array indexing (every modelled index is proved in
range, so the default is never produced). -/
def defaultPost : Post := { id := [], title := [], subreddit := [], cipherFriendly := none }

/-- postIsCipherFriendly from post-database.ts lines 10-12:
post.cipherFriendly ?? isCipherFriendly(post.title). -/
def postIsCipherFriendly (p : Post) : Bool := p.cipherFriendly.getD (isCipherFriendly p.title)

/-- Boolean code-unit-wise lexicographic string comparison; models the
ascending order produced by sorting with (a, b) => a.id.localeCompare(b.id)
(localeCompare is modelled as code-unit comparison). -/
def lexLe : List Char → List Char → Bool
  | [], _ => true
  | _ :: _, [] => false
  | a :: as, b :: bs => if a < b then true else if b < a then false else lexLe as bs

/-- Ordering of posts by id used by getDailyPost line 284. -/
def idLe (a b : Post) : Prop := lexLe a.id b.id = true

instance : DecidableRel idLe := fun a b => by unfold idLe; infer_instance

/-- Sorting step of getDailyPost line 284: [...selectionPool].sort by id. -/
def sortById (l : List Post) : List Post := List.insertionSort idLe l

/-- getDailyPost from post-database.ts lines 254-295, as a pure function of
the store snapshot: allPosts is the pool read from redis, usedIds the used
tracker snapshot, dateString the YYYY-MM-DD date key.  The thrown
"No posts available in database" error is none.  The reset-threshold test
availablePosts.length < allPosts.length * 0.1 is modelled exactly as
10 * availablePosts.length < allPosts.length (for pool sizes far below 2^49
the binary64 product allPosts.length * 0.1 compares to an integer exactly as
the rational does).  The tracker mutations (markPostAsUsedForDaily,
resetUsedDailyPosts) act on the store, not on the returned value. -/
def getDailyPost (allPosts : List Post) (usedIds : List (List Char))
    (dateString : List Char) : Option Post :=
  if allPosts.length = 0 then none
  else
    let availablePosts := allPosts.filter (fun p => decide (p.id ∉ usedIds))
    let cipherFriendlyPool := availablePosts.filter postIsCipherFriendly
    let selectionPool :=
      if 0 < cipherFriendlyPool.length then cipherFriendlyPool else availablePosts
    if 10 * availablePosts.length < allPosts.length then
      let hash := hashString ("daily-".toList ++ dateString)
      some (allPosts.getD (hash % allPosts.length) defaultPost)
    else
      let sortedPosts := sortById selectionPool
      let hash := hashString ("daily-".toList ++ dateString)
      some (sortedPosts.getD (hash % sortedPosts.length) defaultPost)

/-- selectPostFromPool from post-database.ts lines 302-309.  The seed
interpolated into the hash key is taken as its string form. -/
def selectPostFromPool (posts : List Post) (seed : List Char) : Option Post :=
  if posts.length = 0 then none
  else
    let cipherFriendlyPool := posts.filter postIsCipherFriendly
    let selectionPool :=
      if 0 < cipherFriendlyPool.length then cipherFriendlyPool else posts
    let seedHash := hashString ("practice-".toList ++ seed ++ "-pool".toList)
    some (selectionPool.getD (seedHash % selectionPool.length) defaultPost)

/-- Strip one leading "r/" (the regex replace(/^r\//, '')). -/
def stripRSlash : List Char → List Char
  | 'r' :: '/' :: rest => rest
  | l => l

/-- Subreddit normalisation used by getRandomPost line 324:
subreddit.toLowerCase().replace(/^r\//, ''). -/
def normalizeSub (s : List Char) : List Char := stripRSlash (s.map jsToLower)

/-- Truthiness of the optional subreddit argument (undefined and the empty
string are falsy in the JS `if (subreddit)` guards). -/
def subActive : Option (List Char) → Bool
  | some s => !s.isEmpty
  | none => false

/-- getRandomPost from post-database.ts lines 315-351, as a pure function of
the pool snapshot.  Both thrown errors ("No posts found for subreddit" and
"No posts available in database") are none.  seedKey models the interpolated
`${seed ?? Date.now()}` value; the hash key uses the original (unnormalised)
subreddit string, or "all" when the filter is absent. -/
def getRandomPost (posts0 : List Post) (subreddit : Option (List Char))
    (seedKey : List Char) : Option Post :=
  let posts :=
    if subActive subreddit then
      posts0.filter (fun p => decide (normalizeSub p.subreddit = normalizeSub (subreddit.getD [])))
    else posts0
  if subActive subreddit ∧ posts.length = 0 then none
  else if posts.length = 0 then none
  else
    let cipherFriendlyPool := posts.filter postIsCipherFriendly
    let selectionPool :=
      if 0 < cipherFriendlyPool.length then cipherFriendlyPool else posts
    let seedHash := hashString ("practice-".toList ++ seedKey ++ "-".toList ++
      (if subActive subreddit then subreddit.getD [] else "all".toList))
    some (selectionPool.getD (seedHash % selectionPool.length) defaultPost)

/-- Puzzle mode tag. -/
inductive PuzzleMode where
  | daily
  | practice
deriving DecidableEq, Repr

/-- Puzzle record from src/shared/types/puzzle.ts lines 19-27. -/
structure Puzzle where
  id : List Char
  cipherText : List Char
  plainText : List Char
  source : Post
  seed : List Char
  date : List Char
  mode : PuzzleMode
deriving DecidableEq, Repr

/-- Result record of validatePuzzle. -/
structure ValidationResult where
  isSolved : Bool
  correctMappings : Nat
  totalMappings : Nat
deriving DecidableEq, Repr

/-- The distinct cipher letters of a puzzle: new Set(cipherText.match(/[A-Z]/g)),
modelled as the deduplicated list of the A-Z characters of the cipher text
(only the member set and its size are ever used, so duplicate-removal order
is irrelevant). -/
def cipherLettersOf (pz : Puzzle) : List Char :=
  (pz.cipherText.filter (fun c => 'A' ≤ c ∧ c ≤ 'Z')).dedup

/-- Guess check of validatePuzzle line 230: userGuess === cipherMap.decode[c].
The user mapping supplies at most a single plain letter per cipher letter
(undefined and the falsy empty guess are both none). -/
def guessMatches (m : CipherMap) (c : Char) (g : Option Char) : Bool :=
  match g with
  | some gc => decide (m.decode c = some gc)
  | none => false

/-- validatePuzzle from src/server/services/puzzle.ts lines 216-241: count the
distinct cipher letters with a (truthy) guess, and among those the guesses
matching the decode map re-derived from puzzle.seed; solved iff both counters
reach the number of distinct cipher letters. -/
def validatePuzzle (pz : Puzzle) (userMappings : Char → Option Char) : ValidationResult :=
  let cipherLetters := cipherLettersOf pz
  let m := generateCipherMap pz.seed
  let totalMappings := cipherLetters.countP (fun c => (userMappings c).isSome)
  let correctMappings := cipherLetters.countP (fun c => guessMatches m c (userMappings c))
  { isSolved := totalMappings = cipherLetters.length ∧ correctMappings = cipherLetters.length
    correctMappings := correctMappings
    totalMappings := totalMappings }

/-! ### Permutation facts for the swap-based loops -/

theorem cons_set_perm {α : Type} (t : List α) (k : Nat) (a b : α)
    (h : t[k]? = some b) : (a :: t).Perm (b :: t.set k a) := by
  induction t generalizing k a with
  | nil => simp at h
  | cons c t ih =>
    cases k with
    | zero =>
      simp only [List.getElem?_cons_zero, Option.some.injEq] at h
      subst h
      simpa using List.Perm.swap c a t
    | succ k =>
      simp only [List.getElem?_cons_succ] at h
      have h1 : (a :: c :: t).Perm (c :: a :: t) := List.Perm.swap c a t
      have h2 : (c :: a :: t).Perm (c :: b :: t.set k a) := (ih k a h).cons c
      have h3 : (c :: b :: t.set k a).Perm (b :: c :: t.set k a) := List.Perm.swap b c _
      simpa using (h1.trans h2).trans h3

theorem set_set_swap_perm {α : Type} :
    ∀ (l : List α) (i j : Nat) (a b : α), l[i]? = some a → l[j]? = some b →
      ((l.set i b).set j a).Perm l := by
  intro l
  induction l with
  | nil => intro i j a b h1 _; simp at h1
  | cons c t ih =>
    intro i j a b h1 h2
    match i, j with
    | 0, 0 =>
      simp only [List.getElem?_cons_zero, Option.some.injEq] at h1 h2
      subst h1; subst h2
      simp
    | 0, Nat.succ j =>
      simp only [List.getElem?_cons_zero, Option.some.injEq] at h1
      simp only [List.getElem?_cons_succ] at h2
      subst h1
      simpa using (cons_set_perm t j c b h2).symm
    | Nat.succ i, 0 =>
      simp only [List.getElem?_cons_zero, Option.some.injEq] at h2
      simp only [List.getElem?_cons_succ] at h1
      subst h2
      simpa using (cons_set_perm t i c a h1).symm
    | Nat.succ i, Nat.succ j =>
      simp only [List.getElem?_cons_succ] at h1 h2
      simpa using (ih i j a b h1 h2).cons c

theorem listSwap_perm {α : Type} (l : List α) (i j : Nat) :
    (listSwap l i j).Perm l := by
  unfold listSwap
  cases h1 : l[i]? with
  | none => exact List.Perm.refl l
  | some a =>
    cases h2 : l[j]? with
    | none => exact List.Perm.refl l
    | some b => exact set_set_swap_perm l i j a b h1 h2

theorem foldl_shuffleStep_perm {α : Type} (idxs : List Nat) (st : List α × Nat) :
    ((idxs.foldl shuffleStep st).1).Perm st.1 := by
  induction idxs generalizing st with
  | nil => exact List.Perm.refl _
  | cons i rest ih =>
    rw [List.foldl_cons]
    refine (ih (shuffleStep st i)).trans ?_
    simpa [shuffleStep] using listSwap_perm st.1 i _

theorem seededShuffle_perm {α : Type} (l : List α) (seed : Nat) :
    (seededShuffle l seed).Perm l :=
  foldl_shuffleStep_perm (downIdxs l.length) (l, seed)

/-! ### Positional facts about listSwap -/

theorem listSwap_getD_other {α : Type} (l : List α) (i j k : Nat) (d : α)
    (hki : k ≠ i) (hkj : k ≠ j) : (listSwap l i j).getD k d = l.getD k d := by
  unfold listSwap
  cases h1 : l[i]? with
  | none => rfl
  | some a =>
    cases h2 : l[j]? with
    | none => rfl
    | some b =>
      rw [List.getD_eq_getElem?_getD, List.getD_eq_getElem?_getD,
        List.getElem?_set_ne (Ne.symm hkj), List.getElem?_set_ne (Ne.symm hki)]

theorem listSwap_getD_fst {α : Type} (l : List α) (i j : Nat) (d : α)
    (hi : i < l.length) (hj : j < l.length) :
    (listSwap l i j).getD i d = l.getD j d := by
  unfold listSwap
  rw [List.getElem?_eq_getElem hi, List.getElem?_eq_getElem hj]
  by_cases hij : i = j
  · subst hij
    rw [List.getD_eq_getElem?_getD, List.getElem?_set_self (by simpa using hi),
      List.getD_eq_getElem?_getD, List.getElem?_eq_getElem hi]
  · rw [List.getD_eq_getElem?_getD, List.getElem?_set_ne (Ne.symm hij),
      List.getElem?_set_self (by simpa using hi),
      List.getD_eq_getElem?_getD, List.getElem?_eq_getElem hj]

theorem listSwap_getD_snd {α : Type} (l : List α) (i j : Nat) (d : α)
    (hi : i < l.length) (hj : j < l.length) :
    (listSwap l i j).getD j d = l.getD i d := by
  unfold listSwap
  rw [List.getElem?_eq_getElem hi, List.getElem?_eq_getElem hj]
  rw [List.getD_eq_getElem?_getD, List.getElem?_set_self (by simpa using hj),
    List.getD_eq_getElem?_getD, List.getElem?_eq_getElem hi]

/-! ### The fixup pass yields a derangement of the alphabet -/

theorem ALPHABET_length : ALPHABET.length = 26 := by decide

theorem ALPHABET_nodup : ALPHABET.Nodup := by decide

theorem getD_ne_of_nodup (l : List Char) (hnd : l.Nodup) (i j : Nat) (d : Char)
    (hi : i < l.length) (hj : j < l.length) (hij : i ≠ j) :
    l.getD i d ≠ l.getD j d := by
  rw [List.getD_eq_getElem l d hi, List.getD_eq_getElem l d hj]
  intro h
  exact hij ((hnd.getElem_inj_iff).mp h)

theorem fixup_aux (l0 : List Char) (hp : l0.Perm ALPHABET) :
    ∀ n, n ≤ 25 →
      ((List.range n).foldl fixupStep l0).Perm ALPHABET ∧
      ∀ k, k < n → ((List.range n).foldl fixupStep l0).getD k ' ' ≠ ALPHABET.getD k ' ' := by
  intro n
  induction n with
  | zero => exact fun _ => ⟨hp, fun k hk => absurd hk (Nat.not_lt_zero k)⟩
  | succ n ih =>
    intro hn
    obtain ⟨hperm, hfix⟩ := ih (Nat.le_of_succ_le hn)
    rw [List.range_succ, List.foldl_append, List.foldl_cons, List.foldl_nil]
    set ln := (List.range n).foldl fixupStep l0 with hln
    have hlen : ln.length = 26 := hperm.length_eq.trans ALPHABET_length
    have hnodup : ln.Nodup := hperm.nodup_iff.mpr ALPHABET_nodup
    have hn26 : n < 26 := by omega
    have hn126 : n + 1 < 26 := by omega
    by_cases hc : ln.getD n ' ' = ALPHABET.getD n ' '
    · rw [fixupStep, if_pos hc, ALPHABET_length, Nat.mod_eq_of_lt hn126]
      refine ⟨(listSwap_perm ln n (n + 1)).trans hperm, ?_⟩
      intro k hk
      rcases Nat.lt_succ_iff_lt_or_eq.mp hk with hk' | rfl
      · rw [listSwap_getD_other ln n (n + 1) k ' ' (by omega) (by omega)]
        exact hfix k hk'
      · rw [listSwap_getD_fst ln k (k + 1) ' ' (by omega) (by omega)]
        rw [← hc]
        exact getD_ne_of_nodup ln hnodup (k + 1) k ' ' (by omega) (by omega) (by omega)
    · rw [fixupStep, if_neg hc]
      refine ⟨hperm, ?_⟩
      intro k hk
      rcases Nat.lt_succ_iff_lt_or_eq.mp hk with hk' | rfl
      · exact hfix k hk'
      · exact hc

theorem fixup_spec (l0 : List Char) (hp : l0.Perm ALPHABET) :
    (fixup l0).Perm ALPHABET ∧
      ∀ k, k < 26 → (fixup l0).getD k ' ' ≠ ALPHABET.getD k ' ' := by
  obtain ⟨hperm, hfix⟩ := fixup_aux l0 hp 25 le_rfl
  have hfx : fixup l0 = fixupStep ((List.range 25).foldl fixupStep l0) 25 := by
    rw [fixup, ALPHABET_length, List.range_succ, List.foldl_append, List.foldl_cons,
      List.foldl_nil]
  set ln := (List.range 25).foldl fixupStep l0 with hln
  have hlen : ln.length = 26 := hperm.length_eq.trans ALPHABET_length
  have hnodup : ln.Nodup := hperm.nodup_iff.mpr ALPHABET_nodup
  by_cases hc : ln.getD 25 ' ' = ALPHABET.getD 25 ' '
  · have hstep : fixup l0 = listSwap ln 25 0 := by
      rw [hfx, fixupStep, if_pos hc, ALPHABET_length]
    rw [hstep]
    refine ⟨(listSwap_perm ln 25 0).trans hperm, ?_⟩
    intro k hk
    by_cases hk25 : k = 25
    · subst hk25
      rw [listSwap_getD_fst ln 25 0 ' ' (by omega) (by omega), ← hc]
      exact getD_ne_of_nodup ln hnodup 0 25 ' ' (by omega) (by omega) (by omega)
    · by_cases hk0 : k = 0
      · subst hk0
        rw [listSwap_getD_snd ln 25 0 ' ' (by omega) (by omega), hc]
        decide
      · rw [listSwap_getD_other ln 25 0 k ' ' hk25 hk0]
        exact hfix k (by omega)
  · have hstep : fixup l0 = ln := by rw [hfx, fixupStep, if_neg hc]
    rw [hstep]
    refine ⟨hperm, ?_⟩
    intro k hk
    by_cases hk25 : k = 25
    · subst hk25; exact hc
    · exact hfix k (by omega)

theorem cipherShuffled_perm (s : List Char) : (cipherShuffled s).Perm ALPHABET :=
  (fixup_spec (seededShuffle ALPHABET (hashString s)) (seededShuffle_perm ALPHABET _)).1

theorem cipherShuffled_derangement (s : List Char) :
    ∀ k, k < 26 → (cipherShuffled s).getD k ' ' ≠ ALPHABET.getD k ' ' :=
  (fixup_spec (seededShuffle ALPHABET (hashString s)) (seededShuffle_perm ALPHABET _)).2

/-! ### CipherMap properties -/

theorem generateCipherMap_encode_def (s : List Char) (c : Char) :
    (generateCipherMap s).encode c = (cipherShuffled s)[ALPHABET.indexOf c]? := rfl

theorem generateCipherMap_decode_def (s : List Char) (c : Char) :
    (generateCipherMap s).decode c = ALPHABET[(cipherShuffled s).indexOf c]? := rfl

theorem cipher_encode_spec (s : List Char) (c : Char) (hc : c ∈ ALPHABET) :
    ∃ d, (generateCipherMap s).encode c = some d ∧ d ∈ ALPHABET ∧ d ≠ c := by
  have hsh := cipherShuffled_perm s
  have hlen : (cipherShuffled s).length = 26 := hsh.length_eq.trans ALPHABET_length
  have hi : ALPHABET.indexOf c < ALPHABET.length := List.indexOf_lt_length.mpr hc
  have hi26 : ALPHABET.indexOf c < 26 := ALPHABET_length ▸ hi
  have hi2 : ALPHABET.indexOf c < (cipherShuffled s).length := by omega
  refine ⟨(cipherShuffled s).getD (ALPHABET.indexOf c) 'A', ?_, ?_, ?_⟩
  · rw [generateCipherMap_encode_def, List.getElem?_eq_getElem hi2,
      List.getD_eq_getElem _ _ hi2]
  · rw [List.getD_eq_getElem _ _ hi2]
    exact hsh.mem_iff.mp (List.getElem_mem hi2)
  · have hder := cipherShuffled_derangement s (ALPHABET.indexOf c) hi26
    rw [List.getD_eq_getElem _ _ hi2, List.getD_eq_getElem _ _ hi] at hder
    rw [List.getElem_indexOf hi] at hder
    rw [List.getD_eq_getElem _ _ hi2]
    exact hder

theorem cipher_decode_encode (s : List Char) (c d : Char)
    (h : (generateCipherMap s).encode c = some d) :
    (generateCipherMap s).decode d = some c := by
  have hsh := cipherShuffled_perm s
  have hlen : (cipherShuffled s).length = 26 := hsh.length_eq.trans ALPHABET_length
  have hnd : (cipherShuffled s).Nodup := hsh.nodup_iff.mpr ALPHABET_nodup
  rw [generateCipherMap_encode_def] at h
  by_cases hi2 : ALPHABET.indexOf c < (cipherShuffled s).length
  · have hi : ALPHABET.indexOf c < ALPHABET.length := by
      rw [ALPHABET_length, ← hlen]; exact hi2
    rw [List.getElem?_eq_getElem hi2, Option.some.injEq] at h
    subst h
    rw [generateCipherMap_decode_def, List.indexOf_getElem hnd _ hi2,
      List.getElem?_eq_getElem hi, List.getElem_indexOf hi]
  · rw [List.getElem?_eq_none (Nat.le_of_not_lt hi2)] at h
    exact absurd h (by simp)

theorem cipher_encode_decode (s : List Char) (c d : Char)
    (h : (generateCipherMap s).decode c = some d) :
    (generateCipherMap s).encode d = some c := by
  have hsh := cipherShuffled_perm s
  have hlen : (cipherShuffled s).length = 26 := hsh.length_eq.trans ALPHABET_length
  rw [generateCipherMap_decode_def] at h
  by_cases hj2 : (cipherShuffled s).indexOf c < ALPHABET.length
  · have hj : (cipherShuffled s).indexOf c < (cipherShuffled s).length := by
      rw [hlen, ← ALPHABET_length]; exact hj2
    rw [List.getElem?_eq_getElem hj2, Option.some.injEq] at h
    subst h
    rw [generateCipherMap_encode_def, List.indexOf_getElem ALPHABET_nodup _ hj2,
      List.getElem?_eq_getElem hj, List.getElem_indexOf hj]
  · rw [List.getElem?_eq_none (Nat.le_of_not_lt hj2)] at h
    exact absurd h (by simp)

theorem cipher_decode_mem (s : List Char) (d : Char) (hd : d ∈ ALPHABET) :
    ∃ c, (generateCipherMap s).decode d = some c ∧ c ∈ ALPHABET := by
  have hsh := cipherShuffled_perm s
  have hd2 : d ∈ cipherShuffled s := hsh.mem_iff.mpr hd
  have hj : (cipherShuffled s).indexOf d < (cipherShuffled s).length :=
    List.indexOf_lt_length.mpr hd2
  have hj2 : (cipherShuffled s).indexOf d < ALPHABET.length := by
    rw [ALPHABET_length, ← (hsh.length_eq.trans ALPHABET_length)]; exact hj
  refine ⟨ALPHABET.getD ((cipherShuffled s).indexOf d) 'A', ?_, ?_⟩
  · rw [generateCipherMap_decode_def, List.getElem?_eq_getElem hj2,
      List.getD_eq_getElem _ _ hj2]
  · rw [List.getD_eq_getElem _ _ hj2]
    exact List.getElem_mem hj2

/-! ### Round-trip of encode and decode -/

theorem decChar_encChar (s : List Char) (u : Char) :
    decChar (generateCipherMap s) (encChar (generateCipherMap s) u) = u := by
  by_cases hu : u ∈ ALPHABET
  · obtain ⟨d, hd, hdA, _⟩ := cipher_encode_spec s u hu
    rw [encChar, if_pos hu, hd, Option.getD_some]
    rw [decChar, if_pos hdA, cipher_decode_encode s u d hd, Option.getD_some]
  · rw [encChar, if_neg hu, decChar, if_neg hu]

theorem decodeTextLetterwise_encryptText (s : List Char) (text : List Char) :
    decodeTextLetterwise (encryptText text (generateCipherMap s)) (generateCipherMap s) =
      jsToUpperText text := by
  rw [encryptText, decodeTextLetterwise, List.map_map]
  have h : ∀ u ∈ jsToUpperText text,
      (decChar (generateCipherMap s) ∘ encChar (generateCipherMap s)) u = id u := by
    intro u _
    simpa using decChar_encChar s u
  rw [List.map_congr_left h, List.map_id]

/-! ### Claim C1 -/

/-- C1: for every seed string, generateCipherMap returns a map whose encode
component is a bijection on the 26 uppercase letters with zero fixed points
(every letter maps to a different letter, injectively and surjectively), and
whose decode component is the exact two-sided inverse of encode. -/
theorem generateCipherMap_bijective_derangement (seed : List Char) :
    (∀ c ∈ ALPHABET,
      ∃ d, (generateCipherMap seed).encode c = some d ∧ d ∈ ALPHABET ∧ d ≠ c) ∧
    (∀ c1 ∈ ALPHABET, ∀ c2 ∈ ALPHABET,
      (generateCipherMap seed).encode c1 = (generateCipherMap seed).encode c2 → c1 = c2) ∧
    (∀ d ∈ ALPHABET, ∃ c ∈ ALPHABET, (generateCipherMap seed).encode c = some d) ∧
    (∀ c d, (generateCipherMap seed).encode c = some d ↔
      (generateCipherMap seed).decode d = some c) := by
  refine ⟨fun c hc => cipher_encode_spec seed c hc, ?_, ?_, ?_⟩
  · intro c1 h1 c2 h2 heq
    obtain ⟨d, hd, _, _⟩ := cipher_encode_spec seed c1 h1
    have hd2 : (generateCipherMap seed).encode c2 = some d := heq ▸ hd
    have i1 := cipher_decode_encode seed c1 d hd
    have i2 := cipher_decode_encode seed c2 d hd2
    exact Option.some_injective _ (i1.symm.trans i2)
  · intro d hd
    obtain ⟨c, hdc, hcA⟩ := cipher_decode_mem seed d hd
    exact ⟨c, hcA, cipher_encode_decode seed d c hdc⟩
  · intro c d
    exact ⟨cipher_decode_encode seed c d, cipher_encode_decode seed d c⟩

/-- Closed instance of C1 at a concrete seed and letter. -/
theorem generateCipherMap_bijective_derangement_witness :
    ∃ d, (generateCipherMap ("cryptogram-2026-02-05-daily-2026-02-05".toList)).encode 'A' =
        some d ∧ d ∈ ALPHABET ∧ d ≠ 'A' :=
  (generateCipherMap_bijective_derangement
    ("cryptogram-2026-02-05-daily-2026-02-05".toList)).1 'A' (by decide)

/-! ### Claim C2 -/

/-- Counterexample to C2 as stated: encryptText is NOT length-preserving and
does not keep non-letter characters at their input positions, because
toUpperCase applies Unicode full case mappings before substitution.  The
sharp s uppercases to SS, so a 1-character input encrypts to 2 characters
and the exclamation mark following a sharp s is shifted off its input
position; and the letter U+00E9 uppercases to U+00C9, so it is not passed
through verbatim either. -/
theorem encryptText_unicode_counterexample :
    (['ß'] : List Char).length = 1 ∧
    (encryptText ['ß'] (generateCipherMap ("seed".toList))).length = 2 ∧
    (['ß', '!'] : List Char)[1]? = some '!' ∧
    ¬ (encryptText ['ß', '!'] (generateCipherMap ("seed".toList)))[1]? = some '!' ∧
    encryptText ['é'] (generateCipherMap ("seed".toList)) = ['É'] := by decide

/-- C2 amended: decoding encryptText(text, map) letter by letter with the
same map recovers the UPPERCASED text at every position; the encrypted
output has the same length as the uppercased text (which, through Unicode
full case mappings such as sharp s to SS, can be longer than the input),
and every character of the uppercased text outside A-Z is preserved
verbatim at its position in the uppercased text. -/
theorem encryptText_roundtrip (seed text : List Char) :
    decodeTextLetterwise (encryptText text (generateCipherMap seed)) (generateCipherMap seed) =
      jsToUpperText text ∧
    (encryptText text (generateCipherMap seed)).length = (jsToUpperText text).length ∧
    (∀ (k : Nat) (c : Char), (jsToUpperText text)[k]? = some c → c ∉ ALPHABET →
      (encryptText text (generateCipherMap seed))[k]? = some c) := by
  refine ⟨decodeTextLetterwise_encryptText seed text, by simp [encryptText], ?_⟩
  intro k c hk hc
  rw [encryptText, List.getElem?_map, hk, Option.map_some']
  rw [encChar, if_neg hc]

/-- Closed instance of the amended C2: a non-letter character is preserved
at its position by encryption under a concrete seed. -/
theorem encryptText_roundtrip_witness :
    (encryptText ("a b!".toList) (generateCipherMap ("seed".toList)))[1]? = some ' ' :=
  (encryptText_roundtrip ("seed".toList) ("a b!".toList)).2.2 1 ' ' (by decide) (by decide)

/-! ### Claim C5 -/

/-- Counterexample to C5: generateCipherMap performs no boundary validation.
On the empty seed string, hashString returns 0 and the engine proceeds to
produce a complete cipher map (encode maps the letter A to the letter C)
instead of raising an error. -/
theorem empty_seed_not_rejected :
    hashString [] = 0 ∧ (generateCipherMap []).encode 'A' = some 'C' := by decide

/-- C5 amended: generateCipherMap accepts the empty seed string and
deterministically produces a full derangement cipher map from the hash value
0; no InvalidSeed rejection exists in the code. -/
theorem empty_seed_produces_map :
    ∀ c ∈ ALPHABET, ∃ d, (generateCipherMap []).encode c = some d ∧ d ∈ ALPHABET ∧ d ≠ c :=
  fun c hc => cipher_encode_spec [] c hc

/-- Closed instance of the amended C5 at the letter B. -/
theorem empty_seed_produces_map_witness :
    ∃ d, (generateCipherMap []).encode 'B' = some d ∧ d ∈ ALPHABET ∧ d ≠ 'B' :=
  empty_seed_produces_map 'B' (by decide)

/-! ### Claim C8 -/

/-- C8: calculateScore(0, 0, 0) = 15000 — the 10000 base plus the full 5000
time bonus (e^0 = 1), with no hint or mistake penalties, rounded and floored
at 100. -/
theorem calculateScore_zero : calculateScore 0 0 0 = 15000 := by
  rw [calculateScore]
  norm_num [Real.exp_zero]

/-! ### Claim C7 -/

/-- C7: isCipherFriendly(title) is true iff the trimmed title has length at
least 20, contains no digit, and its letter-plus-space count is at least a
0.88 fraction of its length (stated exactly: 22·length ≤ 25·(letters+spaces),
since 0.88 = 22/25). -/
theorem isCipherFriendly_iff (title : List Char) :
    isCipherFriendly title = true ↔
      (20 ≤ (jsTrim title).length ∧
       (jsTrim title).countP isAsciiDigit = 0 ∧
       22 * (jsTrim title).length ≤
         25 * ((jsTrim title).countP isAsciiLetter +
               (jsTrim title).countP (fun c => c = ' '))) := by
  simp only [isCipherFriendly]
  split_ifs with h1 h2
  · simp only [Bool.false_eq_true, false_iff]
    intro h
    omega
  · simp only [Bool.false_eq_true, false_iff]
    intro h
    omega
  · simp only [decide_eq_true_eq]
    constructor
    · intro h
      exact ⟨by omega, by omega, h⟩
    · intro h
      exact h.2.2

/-- Closed instance of C7 on the spec section 8 example title. -/
theorem isCipherFriendly_iff_witness :
    isCipherFriendly
      ("The quick brown fox jumps over the lazy dog and runs far away into hills".toList) =
      true :=
  (isCipherFriendly_iff _).mpr (by decide)

/-! ### Ordering by post id (localeCompare comparator) -/

theorem lexLe_total : ∀ a b : List Char, lexLe a b = true ∨ lexLe b a = true := by
  intro a
  induction a with
  | nil => intro b; left; rfl
  | cons x xs ih =>
    intro b
    cases b with
    | nil => right; rfl
    | cons y ys =>
      rcases lt_trichotomy x y with h | h | h
      · left; simp [lexLe, h]
      · subst h
        rcases ih ys with h2 | h2
        · left; simp [lexLe, h2]
        · right; simp [lexLe, h2]
      · right; simp [lexLe, h]

theorem lexLe_antisymm : ∀ a b : List Char, lexLe a b = true → lexLe b a = true → a = b := by
  intro a
  induction a with
  | nil =>
    intro b h1 h2
    cases b with
    | nil => rfl
    | cons y ys => simp [lexLe] at h2
  | cons x xs ih =>
    intro b h1 h2
    cases b with
    | nil => simp [lexLe] at h1
    | cons y ys =>
      rcases lt_trichotomy x y with h | h | h
      · simp [lexLe, asymm h, h] at h2
      · subst h
        have e : xs = ys := by
          refine ih ys ?_ ?_
          · simpa [lexLe] using h1
          · simpa [lexLe] using h2
        rw [e]
      · simp [lexLe, asymm h, h] at h1

theorem lexLe_trans :
    ∀ a b c : List Char, lexLe a b = true → lexLe b c = true → lexLe a c = true := by
  intro a
  induction a with
  | nil => intro b c _ _; rfl
  | cons x xs ih =>
    intro b c h1 h2
    cases b with
    | nil => simp [lexLe] at h1
    | cons y ys =>
      cases c with
      | nil => simp [lexLe] at h2
      | cons z zs =>
        rcases lt_trichotomy x y with hxy | hxy | hxy
        · rcases lt_trichotomy y z with hyz | hyz | hyz
          · simp [lexLe, lt_trans hxy hyz]
          · subst hyz; simp [lexLe, hxy]
          · simp [lexLe, asymm hyz, hyz] at h2
        · subst hxy
          rcases lt_trichotomy x z with hxz | hxz | hxz
          · simp [lexLe, hxz]
          · subst hxz
            have hh1 : lexLe xs ys = true := by simpa [lexLe] using h1
            have hh2 : lexLe ys zs = true := by simpa [lexLe] using h2
            simp [lexLe, ih ys zs hh1 hh2]
          · simp [lexLe, asymm hxz, hxz] at h2
        · simp [lexLe, asymm hxy, hxy] at h1

instance : IsTotal Post idLe := ⟨fun a b => lexLe_total a.id b.id⟩

instance : IsTrans Post idLe := ⟨fun a b c => lexLe_trans a.id b.id c.id⟩

theorem sortById_sorted (l : List Post) : (sortById l).Sorted idLe :=
  List.sorted_insertionSort idLe l

theorem sortById_perm (l : List Post) : (sortById l).Perm l :=
  List.perm_insertionSort idLe l

/-- Two sorted lists that are permutations of each other and have no
duplicate ids are equal (the comparator is only a preorder on posts, but ids
determine posts whenever the id list is duplicate-free). -/
theorem sorted_perm_eq_of_nodup_id :
    ∀ l1 l2 : List Post, l1.Perm l2 → l1.Sorted idLe → l2.Sorted idLe →
      (l1.map Post.id).Nodup → l1 = l2 := by
  intro l1
  induction l1 with
  | nil =>
    intro l2 hp _ _ _
    exact (hp.symm.eq_nil).symm
  | cons a t1 ih =>
    intro l2 hp hs1 hs2 hnd
    cases l2 with
    | nil => exact absurd hp.eq_nil (by simp)
    | cons b t2 =>
      have hb1 : b ∈ a :: t1 := hp.mem_iff.mpr (List.mem_cons_self b t2)
      have ha2 : a ∈ b :: t2 := hp.mem_iff.mp (List.mem_cons_self a t1)
      have hsorted1 := List.sorted_cons.mp hs1
      have hsorted2 := List.sorted_cons.mp hs2
      have hab : a = b := by
        rcases List.mem_cons.mp hb1 with h | h
        · exact h.symm
        · rcases List.mem_cons.mp ha2 with h2 | h2
          · exact h2
          · have r1 : idLe a b := hsorted1.1 b h
            have r2 : idLe b a := hsorted2.1 a h2
            have hid : a.id = b.id := lexLe_antisymm _ _ r1 r2
            exact List.inj_on_of_nodup_map hnd (List.mem_cons_self a t1) hb1 hid
      subst hab
      have hrest := ih t2 hp.cons_inv hsorted1.2 hsorted2.2
        (by simpa using (List.nodup_cons.mp (by simpa using hnd)).2)
      rw [hrest]

/-! ### Claim C3 -/

/-- A concrete cipher-friendly post with id "a". -/
def cexPostA : Post :=
  { id := "a".toList, title := "t".toList, subreddit := "r/x".toList, cipherFriendly := some true }

/-- A concrete cipher-friendly post with id "b". -/
def cexPostB : Post :=
  { id := "b".toList, title := "t".toList, subreddit := "r/x".toList, cipherFriendly := some true }

/-- Counterexample to C3: the daily selection is NOT stable under appending
candidates to the pool.  With an empty used set and date 2026-02-05, the
1-post pool [a] selects post a, but appending post b changes the selection
to post b, because the index hash % poolSize depends on the pool size
(hashString "daily-2026-02-05" is odd). -/
theorem getDailyPost_append_changes_selection :
    getDailyPost [cexPostA] [] ("2026-02-05".toList) = some cexPostA ∧
    [cexPostA, cexPostB] = [cexPostA] ++ [cexPostB] ∧
    getDailyPost [cexPostA, cexPostB] [] ("2026-02-05".toList) = some cexPostB ∧
    cexPostA ≠ cexPostB := by decide

/-- C3 amended: for a fixed pool snapshot, usedIds snapshot and date, the
selection is a pure function (repeated calls trivially agree), and the
selected post does not depend on the insertion order of the pool: any
permutation of a pool with duplicate-free ids yields the same selected post,
provided the reset-threshold branch is not taken.  Appending new candidates,
by contrast, may change the selection (the index is taken mod the pool
size). -/
theorem getDailyPost_insertion_order_invariant (P Q : List Post)
    (used : List (List Char)) (date : List Char)
    (hperm : P.Perm Q)
    (hnd : (P.map Post.id).Nodup)
    (hnoreset : ¬ 10 * (P.filter (fun p => decide (p.id ∉ used))).length < P.length) :
    getDailyPost P used date = getDailyPost Q used date := by
  have hlen : P.length = Q.length := hperm.length_eq
  have havp : (P.filter (fun p => decide (p.id ∉ used))).Perm
      (Q.filter (fun p => decide (p.id ∉ used))) := hperm.filter _
  have hcfp : ((P.filter (fun p => decide (p.id ∉ used))).filter postIsCipherFriendly).Perm
      ((Q.filter (fun p => decide (p.id ∉ used))).filter postIsCipherFriendly) :=
    havp.filter _
  simp only [getDailyPost]
  by_cases h0 : P.length = 0
  · rw [if_pos h0, if_pos (hlen ▸ h0)]
  · have h0q : ¬ Q.length = 0 := fun h => h0 (hlen ▸ h)
    have hnoresetQ :
        ¬ 10 * (Q.filter (fun p => decide (p.id ∉ used))).length < Q.length := by
      rw [← havp.length_eq, ← hlen]
      exact hnoreset
    rw [if_neg h0, if_neg h0q]
    rw [if_neg hnoreset, if_neg hnoresetQ]
    have hsel :
        (if 0 < ((P.filter (fun p => decide (p.id ∉ used))).filter postIsCipherFriendly).length
         then (P.filter (fun p => decide (p.id ∉ used))).filter postIsCipherFriendly
         else P.filter (fun p => decide (p.id ∉ used))).Perm
        (if 0 < ((Q.filter (fun p => decide (p.id ∉ used))).filter postIsCipherFriendly).length
         then (Q.filter (fun p => decide (p.id ∉ used))).filter postIsCipherFriendly
         else Q.filter (fun p => decide (p.id ∉ used))) := by
      by_cases hcf :
          0 < ((P.filter (fun p => decide (p.id ∉ used))).filter postIsCipherFriendly).length
      · have hcfq :
            0 < ((Q.filter (fun p => decide (p.id ∉ used))).filter
              postIsCipherFriendly).length := by
          rw [← hcfp.length_eq]
          exact hcf
        rw [if_pos hcf, if_pos hcfq]
        exact hcfp
      · have hcfq :
            ¬ 0 < ((Q.filter (fun p => decide (p.id ∉ used))).filter
              postIsCipherFriendly).length := by
          rw [← hcfp.length_eq]
          exact hcf
        rw [if_neg hcf, if_neg hcfq]
        exact havp
    have hsubP :
        (if 0 < ((P.filter (fun p => decide (p.id ∉ used))).filter postIsCipherFriendly).length
         then (P.filter (fun p => decide (p.id ∉ used))).filter postIsCipherFriendly
         else P.filter (fun p => decide (p.id ∉ used))).Sublist P := by
      by_cases hcf :
          0 < ((P.filter (fun p => decide (p.id ∉ used))).filter postIsCipherFriendly).length
      · rw [if_pos hcf]
        exact (List.filter_sublist _).trans (List.filter_sublist _)
      · rw [if_neg hcf]
        exact List.filter_sublist _
    have hndSel :
        ((if 0 < ((P.filter (fun p => decide (p.id ∉ used))).filter postIsCipherFriendly).length
          then (P.filter (fun p => decide (p.id ∉ used))).filter postIsCipherFriendly
          else P.filter (fun p => decide (p.id ∉ used))).map Post.id).Nodup :=
      List.Nodup.sublist (hsubP.map Post.id) hnd
    have hndSort :
        ((sortById (if 0 <
            ((P.filter (fun p => decide (p.id ∉ used))).filter postIsCipherFriendly).length
          then (P.filter (fun p => decide (p.id ∉ used))).filter postIsCipherFriendly
          else P.filter (fun p => decide (p.id ∉ used)))).map Post.id).Nodup :=
      ((sortById_perm _).map Post.id).nodup_iff.mpr hndSel
    have hsorteq :
        sortById (if 0 <
            ((P.filter (fun p => decide (p.id ∉ used))).filter postIsCipherFriendly).length
          then (P.filter (fun p => decide (p.id ∉ used))).filter postIsCipherFriendly
          else P.filter (fun p => decide (p.id ∉ used))) =
        sortById (if 0 <
            ((Q.filter (fun p => decide (p.id ∉ used))).filter postIsCipherFriendly).length
          then (Q.filter (fun p => decide (p.id ∉ used))).filter postIsCipherFriendly
          else Q.filter (fun p => decide (p.id ∉ used))) :=
      sorted_perm_eq_of_nodup_id _ _
        ((sortById_perm _).trans (hsel.trans (sortById_perm _).symm))
        (sortById_sorted _) (sortById_sorted _) hndSort
    rw [hsorteq]

/-- Closed instance of the amended C3: reordering a concrete 2-post pool does
not change the daily selection. -/
theorem getDailyPost_insertion_order_invariant_witness :
    getDailyPost [cexPostA, cexPostB] [] ("2026-02-05".toList) =
      getDailyPost [cexPostB, cexPostA] [] ("2026-02-05".toList) :=
  getDailyPost_insertion_order_invariant [cexPostA, cexPostB] [cexPostB, cexPostA] []
    ("2026-02-05".toList) (by decide) (by decide) (by decide)

/-! ### Claim C4 -/

theorem getD_mem_of_lt {α : Type} (l : List α) (i : Nat) (d : α) (h : i < l.length) :
    l.getD i d ∈ l := by
  rw [List.getD_eq_getElem _ _ h]
  exact List.getElem_mem h

theorem getDailyPost_nonreset_mem (P : List Post) (used : List (List Char))
    (date : List Char) (p : Post)
    (hnoreset : ¬ 10 * (P.filter (fun q => decide (q.id ∉ used))).length < P.length)
    (hres : getDailyPost P used date = some p) :
    p ∈ P.filter (fun q => decide (q.id ∉ used)) := by
  simp only [getDailyPost] at hres
  by_cases h0 : P.length = 0
  · rw [if_pos h0] at hres
    exact absurd hres (by simp)
  · rw [if_neg h0, if_neg hnoreset] at hres
    have hav : 0 < (P.filter (fun q => decide (q.id ∉ used))).length := by
      by_contra hc
      apply hnoreset
      omega
    have hsel : 0 <
        (if 0 < ((P.filter (fun q => decide (q.id ∉ used))).filter
            postIsCipherFriendly).length
         then (P.filter (fun q => decide (q.id ∉ used))).filter postIsCipherFriendly
         else P.filter (fun q => decide (q.id ∉ used))).length := by
      by_cases hcf : 0 < ((P.filter (fun q => decide (q.id ∉ used))).filter
          postIsCipherFriendly).length
      · rw [if_pos hcf]; exact hcf
      · rw [if_neg hcf]; exact hav
    have hlen : 0 <
        (sortById (if 0 < ((P.filter (fun q => decide (q.id ∉ used))).filter
            postIsCipherFriendly).length
          then (P.filter (fun q => decide (q.id ∉ used))).filter postIsCipherFriendly
          else P.filter (fun q => decide (q.id ∉ used)))).length := by
      rw [(sortById_perm _).length_eq]
      exact hsel
    rw [Option.some.injEq] at hres
    subst hres
    have hmem := getD_mem_of_lt _ _ defaultPost
      (Nat.mod_lt (hashString ("daily-".toList ++ date)) hlen)
    have hmem2 := ((sortById_perm _).mem_iff).mp hmem
    by_cases hcf : 0 < ((P.filter (fun q => decide (q.id ∉ used))).filter
        postIsCipherFriendly).length
    · rw [if_pos hcf] at hmem2 ⊢
      exact List.mem_of_mem_filter hmem2
    · rw [if_neg hcf] at hmem2 ⊢
      exact hmem2

/-- C4: when the reset-threshold condition does not hold (the unused portion
of the pool is not below 10 percent of the full pool), getDailyPost never
returns a candidate whose id is already in usedIds.  (When the threshold
condition does hold, the code resets the tracker and indexes the unrestricted
full pool directly, by construction of the reset branch.) -/
theorem getDailyPost_avoids_usedIds (P : List Post) (used : List (List Char))
    (date : List Char) (p : Post)
    (hnoreset : ¬ 10 * (P.filter (fun q => decide (q.id ∉ used))).length < P.length)
    (hres : getDailyPost P used date = some p) :
    p.id ∉ used := by
  have hmem := getDailyPost_nonreset_mem P used date p hnoreset hres
  simpa using List.of_mem_filter hmem

/-- Closed instance of C4: on a concrete 2-post pool with post a already
used, the daily selection returns post b, whose id is not in the used set. -/
theorem getDailyPost_avoids_usedIds_witness : cexPostB.id ∉ [("a".toList)] :=
  getDailyPost_avoids_usedIds [cexPostA, cexPostB] [("a".toList)]
    ("2026-02-05".toList) cexPostB (by decide) (by decide)

/-! ### Claim C9 -/

/-- C9: with a subreddit filter, getRandomPost raises (returns none) when no
post in the pool matches the normalised subreddit, and raises on an empty
pool; when it does return a post under an active filter, that post matches
the filter and belongs to the pool — the selection performs no widening and
no retry. -/
theorem getRandomPost_pool_exhausted (posts : List Post) (sub seedKey : List Char)
    (p : Post) (hsub : sub ≠ []) :
    (posts.filter (fun q => decide (normalizeSub q.subreddit = normalizeSub sub)) = [] →
      getRandomPost posts (some sub) seedKey = none) ∧
    (posts = [] → getRandomPost posts none seedKey = none) ∧
    (getRandomPost posts (some sub) seedKey = some p →
      normalizeSub p.subreddit = normalizeSub sub ∧ p ∈ posts) := by
  have hact : subActive (some sub) = true := by
    cases sub with
    | nil => exact absurd rfl hsub
    | cons c cs => rfl
  refine ⟨?_, ?_, ?_⟩
  · intro hempty
    simp only [getRandomPost, hact, if_true, Option.getD_some]
    rw [hempty]
    simp
  · intro hnil
    subst hnil
    simp [getRandomPost, subActive]
  · intro hres
    simp only [getRandomPost, hact, if_true, Option.getD_some] at hres
    by_cases hflen :
        (posts.filter (fun q => decide (normalizeSub q.subreddit = normalizeSub sub))).length = 0
    · rw [if_pos (by simpa using hflen)] at hres
      exact absurd hres (by simp)
    · rw [if_neg (by simpa using hflen)] at hres
      rw [if_neg hflen] at hres
      have hsel : 0 <
          (if 0 < ((posts.filter (fun q =>
              decide (normalizeSub q.subreddit = normalizeSub sub))).filter
              postIsCipherFriendly).length
           then (posts.filter (fun q =>
              decide (normalizeSub q.subreddit = normalizeSub sub))).filter
              postIsCipherFriendly
           else posts.filter (fun q =>
              decide (normalizeSub q.subreddit = normalizeSub sub))).length := by
        by_cases hcf : 0 < ((posts.filter (fun q =>
            decide (normalizeSub q.subreddit = normalizeSub sub))).filter
            postIsCipherFriendly).length
        · rw [if_pos hcf]; exact hcf
        · rw [if_neg hcf]; omega
      rw [Option.some.injEq] at hres
      subst hres
      have hmem := getD_mem_of_lt _ _ defaultPost
        (Nat.mod_lt (hashString ("practice-".toList ++ seedKey ++ "-".toList ++ sub)) hsel)
      by_cases hcf : 0 < ((posts.filter (fun q =>
          decide (normalizeSub q.subreddit = normalizeSub sub))).filter
          postIsCipherFriendly).length
      · rw [if_pos hcf] at hmem ⊢
        have hmem2 := List.mem_of_mem_filter hmem
        exact ⟨by simpa using List.of_mem_filter hmem2, List.mem_of_mem_filter hmem2⟩
      · rw [if_neg hcf] at hmem ⊢
        exact ⟨by simpa using List.of_mem_filter hmem, List.mem_of_mem_filter hmem⟩

/-- Closed instance of C9: a pool whose only post is from r/x has no match
for the filter r/y, so the practice selection fails explicitly. -/
theorem getRandomPost_pool_exhausted_witness :
    getRandomPost [cexPostA] (some ("r/y".toList)) ("s".toList) = none :=
  (getRandomPost_pool_exhausted [cexPostA] ("r/y".toList) ("s".toList) defaultPost
    (by decide)).1 (by decide)

/-! ### Claim C10 -/

/-- C10: hashString always yields a non-negative integer (here a Nat by
construction, being the absolute value of the signed 32-bit hash), so for
every non-empty pool the selection index hash % poolLength lies below the
pool length, and each selection operation on a non-empty pool returns an
element of that pool without indexing out of bounds. -/
theorem selection_index_in_bounds (s seedKey date : List Char) (posts : List Post)
    (used : List (List Char)) (h : posts ≠ []) :
    hashString s % posts.length < posts.length ∧
    (∃ p, selectPostFromPool posts seedKey = some p ∧ p ∈ posts) ∧
    (∃ p, getDailyPost posts used date = some p ∧ p ∈ posts) ∧
    (∃ p, getRandomPost posts none seedKey = some p ∧ p ∈ posts) := by
  have hpos : 0 < posts.length := List.length_pos.mpr h
  have h0 : ¬ posts.length = 0 := by omega
  refine ⟨Nat.mod_lt _ hpos, ?_, ?_, ?_⟩
  · simp only [selectPostFromPool]
    rw [if_neg h0]
    have hsel : 0 < (if 0 < (posts.filter postIsCipherFriendly).length
        then posts.filter postIsCipherFriendly else posts).length := by
      by_cases hcf : 0 < (posts.filter postIsCipherFriendly).length
      · rw [if_pos hcf]; exact hcf
      · rw [if_neg hcf]; exact hpos
    refine ⟨_, rfl, ?_⟩
    have hmem := getD_mem_of_lt _ _ defaultPost
      (Nat.mod_lt (hashString ("practice-".toList ++ seedKey ++ "-pool".toList)) hsel)
    by_cases hcf : 0 < (posts.filter postIsCipherFriendly).length
    · rw [if_pos hcf] at hmem ⊢
      exact List.mem_of_mem_filter hmem
    · rw [if_neg hcf] at hmem ⊢
      exact hmem
  · by_cases hreset :
        10 * (posts.filter (fun q => decide (q.id ∉ used))).length < posts.length
    · refine ⟨posts.getD (hashString ("daily-".toList ++ date) % posts.length) defaultPost,
        ?_, ?_⟩
      · simp only [getDailyPost]
        rw [if_neg h0, if_pos hreset]
      · exact getD_mem_of_lt _ _ defaultPost
          (Nat.mod_lt (hashString ("daily-".toList ++ date)) hpos)
    · have hres : getDailyPost posts used date =
          some ((sortById (if 0 < ((posts.filter (fun q => decide (q.id ∉ used))).filter
              postIsCipherFriendly).length
            then (posts.filter (fun q => decide (q.id ∉ used))).filter postIsCipherFriendly
            else posts.filter (fun q => decide (q.id ∉ used)))).getD
            (hashString ("daily-".toList ++ date) %
              (sortById (if 0 < ((posts.filter (fun q => decide (q.id ∉ used))).filter
                  postIsCipherFriendly).length
                then (posts.filter (fun q => decide (q.id ∉ used))).filter
                  postIsCipherFriendly
                else posts.filter (fun q => decide (q.id ∉ used)))).length)
            defaultPost) := by
        simp only [getDailyPost]
        rw [if_neg h0, if_neg hreset]
      refine ⟨_, hres, ?_⟩
      exact List.mem_of_mem_filter (getDailyPost_nonreset_mem posts used date _ hreset hres)
  · simp only [getRandomPost, subActive]
    simp only [Bool.false_eq_true, false_and, if_false, Option.getD_some]
    rw [if_neg h0]
    have hsel : 0 < (if 0 < (posts.filter postIsCipherFriendly).length
        then posts.filter postIsCipherFriendly else posts).length := by
      by_cases hcf : 0 < (posts.filter postIsCipherFriendly).length
      · rw [if_pos hcf]; exact hcf
      · rw [if_neg hcf]; exact hpos
    refine ⟨_, rfl, ?_⟩
    have hmem := getD_mem_of_lt _ _ defaultPost
      (Nat.mod_lt (hashString ("practice-".toList ++ seedKey ++ "-".toList ++ "all".toList))
        hsel)
    by_cases hcf : 0 < (posts.filter postIsCipherFriendly).length
    · rw [if_pos hcf] at hmem ⊢
      exact List.mem_of_mem_filter hmem
    · rw [if_neg hcf] at hmem ⊢
      exact hmem

/-- Closed instance of C10 on a concrete singleton pool. -/
theorem selection_index_in_bounds_witness :
    hashString ("x".toList) % [cexPostA].length < [cexPostA].length ∧
    (∃ p, selectPostFromPool [cexPostA] ("s".toList) = some p ∧ p ∈ [cexPostA]) ∧
    (∃ p, getDailyPost [cexPostA] [] ("2026-02-05".toList) = some p ∧ p ∈ [cexPostA]) ∧
    (∃ p, getRandomPost [cexPostA] none ("s".toList) = some p ∧ p ∈ [cexPostA]) :=
  selection_index_in_bounds ("x".toList) ("s".toList) ("2026-02-05".toList) [cexPostA] []
    (by decide)

/-! ### Claim C6 -/

/-- C6: validatePuzzle (a total function, returning a structured result for
any guess) reports isSolved = true iff every distinct cipher letter of the
cipher text has a guess equal to the decode value of the map re-derived from
the puzzle seed; correctMappings counts exactly the guessed letters whose
guess matches that re-derived decode map. -/
theorem validatePuzzle_isSolved_iff (pz : Puzzle) (um : Char → Option Char) :
    ((validatePuzzle pz um).isSolved = true ↔
      ∀ c ∈ cipherLettersOf pz, ∃ g, um c = some g ∧
        (generateCipherMap pz.seed).decode c = some g) ∧
    (validatePuzzle pz um).correctMappings =
      (cipherLettersOf pz).countP
        (fun c => guessMatches (generateCipherMap pz.seed) c (um c)) := by
  refine ⟨?_, by simp only [validatePuzzle]⟩
  simp only [validatePuzzle, decide_eq_true_eq]
  constructor
  · rintro ⟨h1, h2⟩ c hc
    have hq := List.countP_eq_length.mp h2 c hc
    cases hg : um c with
    | none => rw [hg] at hq; simp [guessMatches] at hq
    | some g =>
      rw [hg] at hq
      simp only [guessMatches, decide_eq_true_eq] at hq
      exact ⟨g, rfl, hq⟩
  · intro hall
    constructor
    · apply List.countP_eq_length.mpr
      intro c hc
      obtain ⟨g, hg, _⟩ := hall c hc
      simp [hg]
    · apply List.countP_eq_length.mpr
      intro c hc
      obtain ⟨g, hg, hdec⟩ := hall c hc
      rw [hg]
      simp only [guessMatches, decide_eq_true_eq]
      exact hdec

/-- A concrete one-letter puzzle over the empty seed. -/
def cexPuzzle : Puzzle :=
  { id := "p".toList, cipherText := "A".toList, plainText := "Y".toList,
    source := cexPostA, seed := [], date := "2026-02-05".toList, mode := PuzzleMode.daily }

/-- Closed instance of C6: guessing Y for the single cipher letter A solves
the concrete puzzle (the empty-seed map decodes A to Y). -/
theorem validatePuzzle_isSolved_iff_witness :
    (validatePuzzle cexPuzzle (fun _ => some 'Y')).isSolved = true :=
  (validatePuzzle_isSolved_iff cexPuzzle (fun _ => some 'Y')).1.mpr (by
    intro c hc
    have hcl : cipherLettersOf cexPuzzle = ['A'] := by decide
    rw [hcl] at hc
    have hceq : c = 'A' := by simpa using hc
    subst hceq
    exact ⟨'Y', rfl, by decide⟩)
